import Mathlib

/-!
# Verification of the Bloom filter engine (`src/bloom_filter.cpp` / `src/bloom_filter.h`)

Shallow embedding of the C++ Bloom filter. Machine arithmetic is modelled
explicitly: `unsigned long` and `size_t` are 64-bit on the LP64 target, so
every accumulation and combination is taken `% U64`. Keys (`std::string`)
are modelled as lists of byte values. (`char` signedness is
implementation-defined in C++; bytes are taken at their unsigned value,
which coincides with the source behaviour on all 7-bit inputs and on
targets with unsigned `char`.) File contents are modelled as lists of byte
values; `saveToFile` becomes the byte stream it writes (little-endian
native layout on the target), `loadFromFile` the parser of such a stream,
returning `none` exactly where the C++ returns `nullptr`.
-/

/-- Modulus of 64-bit unsigned arithmetic (`unsigned long` / `size_t` on LP64). -/
def U64 : ℕ := 2 ^ 64

/-- The filter state: fields `size`, `numHashes`, `bitArray` of the C++ class. -/
structure BloomFilter where
  size : ℕ
  numHashes : ℕ
  bitArray : List Bool
deriving DecidableEq, Repr

/-- The constructor `BloomFilter(filterSize, numHashFunctions)`:
`bitArray(filterSize, false)` — no parameter validation is performed. -/
def mkBloomFilter (filterSize numHashFunctions : ℕ) : BloomFilter :=
  ⟨filterSize, numHashFunctions, List.replicate filterSize false⟩

namespace BloomFilter

/-- One step of `hashFunction1` (djb2): `hash = ((hash << 5) + hash) + c`,
64-bit unsigned wraparound. -/
def hashStep1 (h c : ℕ) : ℕ := (((h <<< 5) + h) + c) % U64

/-- `BloomFilter::hashFunction1` — djb2 accumulation from seed 5381, then `% size`. -/
def hashFunction1 (key : List ℕ) (size : ℕ) : ℕ :=
  (key.foldl hashStep1 5381) % size

/-- One step of `hashFunction2` (sdbm): `hash = c + (hash << 6) + (hash << 16) - hash`,
64-bit unsigned wraparound. `Nat` subtraction is exact here since `h ≤ h <<< 6`. -/
def hashStep2 (h c : ℕ) : ℕ := (c + (h <<< 6) + (h <<< 16) - h) % U64

/-- `BloomFilter::hashFunction2` — sdbm accumulation from seed 0, then `% size`. -/
def hashFunction2 (key : List ℕ) (size : ℕ) : ℕ :=
  (key.foldl hashStep2 0) % size

/-- `BloomFilter::combinedHash`: `(hash1 + seed * hash2) % size`, the sum and
product computed in `size_t` (mod `2^64`). -/
def combinedHash (key : List ℕ) (seed size : ℕ) : ℕ :=
  ((hashFunction1 key size + seed * hashFunction2 key size) % U64) % size

/-- `BloomFilter::insert`: for each hash function `i < numHashes`
(installed by `initializeHashFunctions` as `combinedHash key i`),
set `bitArray[combinedHash element i]` to `true`. -/
def insert (f : BloomFilter) (element : List ℕ) : BloomFilter :=
  { f with
    bitArray :=
      (List.range f.numHashes).foldl
        (fun bs i => bs.set (combinedHash element i f.size) true) f.bitArray }

/-- `BloomFilter::mightContain`: `false` at the first unset bit, `true` if all
`numHashes` probed bits are set.  (`List.all` short-circuits like the loop.) -/
def mightContain (f : BloomFilter) (element : List ℕ) : Bool :=
  (List.range f.numHashes).all
    (fun i => f.bitArray.getD (combinedHash element i f.size) false)

/-- `BloomFilter::clear`: `for i < size: bitArray[i] = false`. -/
def clear (f : BloomFilter) : BloomFilter :=
  { f with
    bitArray := (List.range f.size).foldl (fun bs i => bs.set i false) f.bitArray }

end BloomFilter

namespace BloomFilter

/-- `BloomFilter::getSize`. -/
def getSize (f : BloomFilter) : ℕ := f.size

/-- `BloomFilter::getNumHashes`. -/
def getNumHashes (f : BloomFilter) : ℕ := f.numHashes

/-- `BloomFilter::getCurrentFalsePositiveRate`: `0.0` for zero items, else
`(1 - e^(-k·n/m))^k`.  The `double` arithmetic is modelled over `ℝ`. -/
noncomputable def getCurrentFalsePositiveRate (f : BloomFilter) (insertedItems : ℕ) : ℝ :=
  if insertedItems = 0 then 0
  else (1 - Real.exp ((-1 : ℝ) * f.numHashes * insertedItems / f.size)) ^ f.numHashes

/-- `BloomFilter::createOptimal`.  The `double` computation is modelled over
`ℝ`; `static_cast<size_t>(ceil(x))` is `⌈x⌉.toNat` (exact for the
non-negative, non-NaN arguments; the C++ cast is undefined otherwise, e.g.
for `expectedItems == 0`, where `optimalSize / 0.0` is NaN).  Note: no input
validation of any kind, and no error path — every call returns a filter. -/
noncomputable def createOptimal (expectedItems : ℕ) (falsePositiveRate : ℝ) : BloomFilter :=
  let optimalSize0 : ℕ :=
    (⌈(-1 : ℝ) * expectedItems * Real.log falsePositiveRate /
        (Real.log 2 * Real.log 2)⌉).toNat
  let optimalHashes0 : ℕ :=
    (⌈((optimalSize0 : ℝ) / (expectedItems : ℝ)) * Real.log 2⌉).toNat
  let optimalHashes : ℕ := if optimalHashes0 < 1 then 1 else optimalHashes0
  let optimalSize : ℕ := if optimalSize0 < 8 then 8 else optimalSize0
  mkBloomFilter optimalSize optimalHashes

end BloomFilter

/-- Little-endian byte encoding of an unsigned value in `w` bytes, as
`ofstream::write(reinterpret_cast<const char*>(&v), w)` produces on the
little-endian target. -/
def toLEBytes : ℕ → ℕ → List ℕ
  | 0, _ => []
  | w + 1, n => n % 256 :: toLEBytes w (n / 256)

/-- Little-endian byte decoding, as `ifstream::read` into an unsigned value
performs on the little-endian target. -/
def fromLEBytes : List ℕ → ℕ
  | [] => 0
  | b :: bs => b + 256 * fromLEBytes bs

/-- The packing loop of `BloomFilter::saveToFile`: `packedBits((size+7)/8, 0)`,
then for `i < size` with `bitArray[i]` set, `packedBits[i/8] |= 1 << (i%8)`. -/
def packBits (size : ℕ) (bits : List Bool) : List ℕ :=
  (List.range size).foldl
    (fun acc i =>
      if bits.getD i false then
        acc.set (i / 8) ((acc.getD (i / 8) 0) ||| (1 <<< (i % 8)))
      else acc)
    (List.replicate ((size + 7) / 8) 0)

namespace BloomFilter

/-- `BloomFilter::saveToFile`, as the byte stream written on success:
the `size` field (8 bytes), the `numHashes` field (4 bytes), then the packed
bit array.  (Failure to open the output file concerns the file system, not
the filter, and is outside the byte-level model.) -/
def saveBytes (f : BloomFilter) : List ℕ :=
  toLEBytes 8 f.size ++ toLEBytes 4 f.numHashes ++ packBits f.size f.bitArray

end BloomFilter

/-- The unpacking loop of `BloomFilter::loadFromFile`: starting from the
freshly constructed (all-false) array, for `i < loadedSize` set `bitArray[i]`
when `packedBits[i/8] & (1 << (i%8))` is non-zero. -/
def unpackBits (size : ℕ) (packed : List ℕ) : List Bool :=
  (List.range size).foldl
    (fun bs i =>
      if (packed.getD (i / 8) 0) &&& (1 <<< (i % 8)) ≠ 0 then bs.set i true else bs)
    (List.replicate size false)

namespace BloomFilter

/-- `BloomFilter::loadFromFile` on a byte stream: `none` wherever the C++
returns `nullptr`.  Reading the 8-byte `size` then the 4-byte `numHashes`
fails (sets `failbit`, checked once after both reads) iff fewer than 12 bytes
are available; reading the `(size+7)/8` payload bytes fails iff fewer remain,
in which case the allocated filter is deleted and `nullptr` returned. -/
def loadBytes (bs : List ℕ) : Option BloomFilter :=
  if bs.length < 12 then none
  else
    let loadedSize := fromLEBytes (bs.take 8)
    let loadedNumHashes := fromLEBytes ((bs.drop 8).take 4)
    let rest := bs.drop 12
    if rest.length < (loadedSize + 7) / 8 then none
    else some ⟨loadedSize, loadedNumHashes,
               unpackBits loadedSize (rest.take ((loadedSize + 7) / 8))⟩

/-! Stateful presentations of the `const` member functions, for the frame
claim: each C++ call is a pair (state after the call, returned value).  The
source methods are declared `const` and write no member, so the state after
the call is the state before it. -/

/-- `mightContain` as a state transformer (`const` method). -/
def mightContainS (f : BloomFilter) (element : List ℕ) : BloomFilter × Bool :=
  (f, f.mightContain element)

/-- `getSize` as a state transformer (`const` method). -/
def getSizeS (f : BloomFilter) : BloomFilter × ℕ := (f, f.getSize)

/-- `getNumHashes` as a state transformer (`const` method). -/
def getNumHashesS (f : BloomFilter) : BloomFilter × ℕ := (f, f.getNumHashes)

/-- `getCurrentFalsePositiveRate` as a state transformer (`const` method). -/
noncomputable def getCurrentFalsePositiveRateS (f : BloomFilter) (insertedItems : ℕ) :
    BloomFilter × ℝ :=
  (f, f.getCurrentFalsePositiveRate insertedItems)

/-- `saveToFile` as a state transformer (`const` method): returns the written
byte stream. -/
def saveToFileS (f : BloomFilter) : BloomFilter × List ℕ := (f, f.saveBytes)

end BloomFilter

/-- Well-formedness every C++ `BloomFilter` instance has by construction:
the vector holds exactly `size` cells and the fields fit their machine types
(`size_t` resp. `unsigned int`). -/
def WF (f : BloomFilter) : Prop :=
  f.bitArray.length = f.size ∧ f.size < 2 ^ 64 ∧ f.numHashes < 2 ^ 32

instance (f : BloomFilter) : Decidable (WF f) := by
  unfold WF; infer_instance

/-- A sequence of further insertions (arbitrary interleaved workload of
`insert` calls). -/
def insertList (f : BloomFilter) (ks : List (List ℕ)) : BloomFilter :=
  ks.foldl BloomFilter.insert f

/-! Definitions transcribed from the words of the specification (§4.2), to be
compared with the definitions transcribed from the source.  The spec
describes `h1` as "iteratively accumulate `hash = hash*33 + byte` over all
bytes (seed 5381), result mod `size`", `h2` as "iteratively accumulate
`hash = byte + (hash<<6) + (hash<<16) - hash` over all bytes (seed 0),
result mod `size`", and `index_i = (h1(key) + i * h2(key)) mod size`, with
"fixed-width unsigned integer arithmetic with silent wraparound". -/

/-- Spec §4.2 `h1`: `hash = hash*33 + byte`, seed 5381, result mod size. -/
def specH1 (key : List ℕ) (size : ℕ) : ℕ :=
  (key.foldl (fun h b => (h * 33 + b) % U64) 5381) % size

/-- Spec §4.2 `h2`: `hash = byte + (hash<<6) + (hash<<16) - hash`, seed 0,
result mod size. -/
def specH2 (key : List ℕ) (size : ℕ) : ℕ :=
  (key.foldl (fun h b => (b + (h <<< 6) + (h <<< 16) - h) % U64) 0) % size

/-- Spec §4.2 `index_i = (h1(key) + i*h2(key)) mod size` (fixed-width
unsigned arithmetic). -/
def specIndex (key : List ℕ) (i size : ℕ) : ℕ :=
  ((specH1 key size + i * specH2 key size) % U64) % size

/-! ## Helper lemmas -/

lemma packStep_length (bits : List Bool) (bs : List ℕ) (i : ℕ) :
    (if bits.getD i false then
        bs.set (i / 8) ((bs.getD (i / 8) 0) ||| (1 <<< (i % 8)))
      else bs).length = bs.length := by
  by_cases hb : bits.getD i false = true
  · rw [if_pos hb, List.length_set]
  · rw [if_neg hb]

lemma getD_set_iff {α : Type} (l : List α) (i j : ℕ) (a d : α) :
    (l.set i a).getD j d = if i = j ∧ i < l.length then a else l.getD j d := by
  rw [List.getD_eq_getElem?_getD, List.getD_eq_getElem?_getD, List.getElem?_set]
  by_cases hij : i = j
  · subst hij
    by_cases hlt : i < l.length
    · simp [hlt]
    · simp [hlt, List.getElem?_eq_none (Nat.le_of_not_lt hlt)]
  · simp [hij]

lemma foldl_length_inv {α β : Type} (g : List α → β → List α)
    (hg : ∀ bs b, (g bs b).length = bs.length) :
    ∀ (l : List β) (bs : List α), (l.foldl g bs).length = bs.length := by
  intro l
  induction l with
  | nil => intro bs; rfl
  | cons b l ih => intro bs; rw [List.foldl_cons, ih, hg]

lemma getD_replicate_false (n j : ℕ) : (List.replicate n false).getD j false = false := by
  rw [List.getD_eq_getElem?_getD, List.getElem?_replicate]
  by_cases h : j < n <;> simp [h]

lemma toLEBytes_length : ∀ (w n : ℕ), (toLEBytes w n).length = w := by
  intro w
  induction w with
  | zero => intro n; rfl
  | succ w ih => intro n; simp [toLEBytes, ih]

lemma fromLEBytes_toLEBytes : ∀ (w n : ℕ), fromLEBytes (toLEBytes w n) = n % 256 ^ w := by
  intro w
  induction w with
  | zero => intro n; simp [toLEBytes, fromLEBytes, Nat.mod_one]
  | succ w ih =>
      intro n
      rw [toLEBytes, fromLEBytes, ih, pow_succ, mul_comm (256 ^ w) 256, Nat.mod_mul]

lemma setTrueFold_getD (h : ℕ → ℕ) :
    ∀ (l : List ℕ) (bs : List Bool) (j : ℕ),
      ((l.foldl (fun bs i => bs.set (h i) true) bs).getD j false = true) ↔
        (bs.getD j false = true ∨ ∃ i ∈ l, h i = j ∧ j < bs.length) := by
  intro l
  induction l with
  | nil => intro bs j; simp
  | cons i l ih =>
      intro bs j
      rw [List.foldl_cons, ih, getD_set_iff, List.length_set]
      by_cases hij : h i = j ∧ h i < bs.length
      · rw [if_pos hij]
        constructor
        · intro _; exact Or.inr ⟨i, List.mem_cons_self i l, hij.1, hij.1 ▸ hij.2⟩
        · intro _; exact Or.inl rfl
      · rw [if_neg hij]
        constructor
        · rintro (hb | ⟨i', hi', hji', hlt⟩)
          · exact Or.inl hb
          · exact Or.inr ⟨i', List.mem_cons_of_mem i hi', hji', hlt⟩
        · rintro (hb | ⟨i', hi', hji', hlt⟩)
          · exact Or.inl hb
          · rcases List.mem_cons.mp hi' with rfl | hi''
            · exact absurd ⟨hji', hji' ▸ hlt⟩ hij
            · exact Or.inr ⟨i', hi'', hji', hlt⟩

lemma condSetTrueFold_getD (cond : ℕ → Prop) [DecidablePred cond] :
    ∀ (l : List ℕ) (bs : List Bool) (j : ℕ),
      ((l.foldl (fun bs i => if cond i then bs.set i true else bs) bs).getD j false = true) ↔
        (bs.getD j false = true ∨ (j ∈ l ∧ cond j ∧ j < bs.length)) := by
  intro l
  induction l with
  | nil => intro bs j; simp
  | cons i l ih =>
      intro bs j
      rw [List.foldl_cons]
      by_cases hc : cond i
      · rw [if_pos hc, ih, getD_set_iff, List.length_set]
        by_cases hij : i = j ∧ i < bs.length
        · rw [if_pos hij]
          constructor
          · intro _; exact Or.inr ⟨hij.1 ▸ List.mem_cons_self i l, hij.1 ▸ hc, hij.1 ▸ hij.2⟩
          · intro _; exact Or.inl rfl
        · rw [if_neg hij]
          constructor
          · rintro (hb | ⟨hj, hcj, hlt⟩)
            · exact Or.inl hb
            · exact Or.inr ⟨List.mem_cons_of_mem i hj, hcj, hlt⟩
          · rintro (hb | ⟨hj, hcj, hlt⟩)
            · exact Or.inl hb
            · rcases List.mem_cons.mp hj with rfl | hj'
              · exact absurd ⟨rfl, hlt⟩ hij
              · exact Or.inr ⟨hj', hcj, hlt⟩
      · rw [if_neg hc, ih]
        constructor
        · rintro (hb | ⟨hj, hcj, hlt⟩)
          · exact Or.inl hb
          · exact Or.inr ⟨List.mem_cons_of_mem i hj, hcj, hlt⟩
        · rintro (hb | ⟨hj, hcj, hlt⟩)
          · exact Or.inl hb
          · rcases List.mem_cons.mp hj with rfl | hj'
            · exact absurd hcj hc
            · exact Or.inr ⟨hj', hcj, hlt⟩

lemma setFalseFold_getD :
    ∀ (l : List ℕ) (bs : List Bool) (j : ℕ),
      ((l.foldl (fun bs i => bs.set i false) bs).getD j false = true) ↔
        (bs.getD j false = true ∧ ¬(j ∈ l ∧ j < bs.length)) := by
  intro l
  induction l with
  | nil => intro bs j; simp
  | cons i l ih =>
      intro bs j
      rw [List.foldl_cons, ih, getD_set_iff, List.length_set]
      by_cases hij : i = j ∧ i < bs.length
      · rw [if_pos hij]
        constructor
        · rintro ⟨h, -⟩; exact absurd h (by simp)
        · rintro ⟨-, hn⟩; exact absurd ⟨hij.1 ▸ List.mem_cons_self i l, hij.1 ▸ hij.2⟩ hn
      · rw [if_neg hij]
        constructor
        · rintro ⟨hb, hn⟩
          refine ⟨hb, ?_⟩
          rintro ⟨hj, hlt⟩
          rcases List.mem_cons.mp hj with rfl | hj'
          · exact hij ⟨rfl, hlt⟩
          · exact hn ⟨hj', hlt⟩
        · rintro ⟨hb, hn⟩
          refine ⟨hb, ?_⟩
          rintro ⟨hj, hlt⟩
          exact hn ⟨List.mem_cons_of_mem i hj, hlt⟩

lemma packFold_testBit (bits : List Bool) :
    ∀ (t : ℕ) (acc : List ℕ), t ≤ 8 * acc.length →
      ∀ j b,
        (((List.range t).foldl
            (fun acc i =>
              if bits.getD i false then
                acc.set (i / 8) ((acc.getD (i / 8) 0) ||| (1 <<< (i % 8)))
              else acc) acc).getD j 0).testBit b = true ↔
          ((acc.getD j 0).testBit b = true ∨
            (b < 8 ∧ 8 * j + b < t ∧ bits.getD (8 * j + b) false = true)) := by
  intro t
  induction t with
  | zero => intro acc _ j b; simp
  | succ t ih =>
      intro acc ht j b
      rw [List.range_succ, List.foldl_append, List.foldl_cons, List.foldl_nil]
      set X := (List.range t).foldl
        (fun acc i =>
          if bits.getD i false then
            acc.set (i / 8) ((acc.getD (i / 8) 0) ||| (1 <<< (i % 8)))
          else acc) acc with hXdef
      have hX : X.length = acc.length :=
        foldl_length_inv _ (fun bs i => packStep_length bits bs i) (List.range t) acc
      have iht := ih acc (by omega)
      rw [← hXdef] at iht
      by_cases hbt : bits.getD t false = true
      · rw [if_pos hbt, getD_set_iff]
        by_cases hj : t / 8 = j ∧ t / 8 < X.length
        · rw [if_pos hj, Nat.testBit_or, Nat.one_shiftLeft, Nat.testBit_two_pow,
            Bool.or_eq_true, decide_eq_true_eq, hj.1, iht j b]
          constructor
          · rintro ((ha | ⟨hb8, hlt, hbit⟩) | hmb)
            · exact Or.inl ha
            · exact Or.inr ⟨hb8, by omega, hbit⟩
            · refine Or.inr ⟨by omega, by omega, ?_⟩
              have h8 : 8 * j + b = t := by
                have := hj.1
                omega
              rw [h8]; exact hbt
          · rintro (ha | ⟨hb8, hlt, hbit⟩)
            · exact Or.inl (Or.inl ha)
            · by_cases hcase : 8 * j + b < t
              · exact Or.inl (Or.inr ⟨hb8, hcase, hbit⟩)
              · have h8 : 8 * j + b = t := by omega
                exact Or.inr (by omega)
        · rw [if_neg hj, iht j b]
          have hne : ¬(b < 8 ∧ 8 * j + b = t) := by
            rintro ⟨hb8, h8⟩
            apply hj
            refine ⟨by omega, ?_⟩
            rw [hX]; omega
          constructor
          · rintro (ha | ⟨hb8, hlt, hbit⟩)
            · exact Or.inl ha
            · exact Or.inr ⟨hb8, by omega, hbit⟩
          · rintro (ha | ⟨hb8, hlt, hbit⟩)
            · exact Or.inl ha
            · refine Or.inr ⟨hb8, ?_, hbit⟩
              have : 8 * j + b ≠ t := fun h => hne ⟨hb8, h⟩
              omega
      · rw [if_neg hbt, iht j b]
        constructor
        · rintro (ha | ⟨hb8, hlt, hbit⟩)
          · exact Or.inl ha
          · exact Or.inr ⟨hb8, by omega, hbit⟩
        · rintro (ha | ⟨hb8, hlt, hbit⟩)
          · exact Or.inl ha
          · refine Or.inr ⟨hb8, ?_, hbit⟩
            have hne : 8 * j + b ≠ t := by
              intro h
              rw [h] at hbit
              exact hbt hbit
            omega

lemma bool_eq_of_iff {a b : Bool} (h : (a = true) ↔ (b = true)) : a = b := by
  cases a <;> cases b <;> simp_all

lemma getD_replicate_zero (n j : ℕ) : (List.replicate n (0 : ℕ)).getD j 0 = 0 := by
  rw [List.getD_eq_getElem?_getD, List.getElem?_replicate]
  by_cases h : j < n <;> simp [h]

lemma packBits_length (size : ℕ) (bits : List Bool) :
    (packBits size bits).length = (size + 7) / 8 := by
  unfold packBits
  rw [foldl_length_inv _ (fun bs i => packStep_length bits bs i), List.length_replicate]

lemma packBits_testBit (size : ℕ) (bits : List Bool) (i : ℕ) (hi : i < size) :
    ((packBits size bits).getD (i / 8) 0).testBit (i % 8) = bits.getD i false := by
  have h := packFold_testBit bits size (List.replicate ((size + 7) / 8) 0)
    (by rw [List.length_replicate]; omega) (i / 8) (i % 8)
  rw [getD_replicate_zero, Nat.zero_testBit] at h
  have hdm : 8 * (i / 8) + i % 8 = i := by omega
  rw [hdm] at h
  apply bool_eq_of_iff
  rw [show ((packBits size bits).getD (i / 8) 0).testBit (i % 8) =
        (((List.range size).foldl
          (fun acc i =>
            if bits.getD i false then
              acc.set (i / 8) ((acc.getD (i / 8) 0) ||| (1 <<< (i % 8)))
            else acc) (List.replicate ((size + 7) / 8) 0)).getD (i / 8) 0).testBit (i % 8)
      from rfl, h]
  constructor
  · rintro (hfalse | ⟨-, -, hb⟩)
    · exact absurd hfalse (by simp)
    · exact hb
  · intro hb
    exact Or.inr ⟨by omega, hi, hb⟩

lemma and_two_pow_ne_zero (n k : ℕ) : (n &&& 2 ^ k ≠ 0) ↔ n.testBit k = true := by
  rw [Nat.and_two_pow]
  cases h : n.testBit k
  · simp
  · have h2 : (2 : ℕ) ^ k ≠ 0 := pow_ne_zero k (by omega)
    simp [h2]

lemma condSetTrueStep_length {cond : ℕ → Prop} [DecidablePred cond]
    (bs : List Bool) (j : ℕ) :
    (if cond j then bs.set j true else bs).length = bs.length := by
  by_cases hc : cond j
  · rw [if_pos hc, List.length_set]
  · rw [if_neg hc]

lemma unpackBits_length (size : ℕ) (packed : List ℕ) :
    (unpackBits size packed).length = size := by
  have h := foldl_length_inv
    (fun bs i =>
      if (packed.getD (i / 8) 0) &&& (1 <<< (i % 8)) ≠ 0 then bs.set i true else bs)
    (fun bs i =>
      @condSetTrueStep_length (fun i => (packed.getD (i / 8) 0) &&& (1 <<< (i % 8)) ≠ 0)
        (fun i => instDecidableNot) bs i)
    (List.range size) (List.replicate size false)
  rw [List.length_replicate] at h
  exact h

lemma unpackBits_getD (size : ℕ) (packed : List ℕ) (j : ℕ) (hj : j < size) :
    ((unpackBits size packed).getD j false = true) ↔
      (packed.getD (j / 8) 0) &&& (1 <<< (j % 8)) ≠ 0 := by
  have h := condSetTrueFold_getD (fun i => (packed.getD (i / 8) 0) &&& (1 <<< (i % 8)) ≠ 0)
    (List.range size) (List.replicate size false) j
  rw [getD_replicate_false, List.length_replicate] at h
  have h' : ((unpackBits size packed).getD j false = true) ↔
      (false = true ∨ (j ∈ List.range size ∧
        ((packed.getD (j / 8) 0) &&& (1 <<< (j % 8)) ≠ 0) ∧ j < size)) := h
  rw [h']
  constructor
  · rintro (hfalse | ⟨-, hc, -⟩)
    · exact absurd hfalse (by simp)
    · exact hc
  · intro hc
    exact Or.inr ⟨List.mem_range.mpr hj, hc, hj⟩

lemma unpack_pack (size : ℕ) (bits : List Bool) (hlen : bits.length = size) :
    unpackBits size (packBits size bits) = bits := by
  apply List.ext_getElem
  · rw [unpackBits_length, hlen]
  · intro n h1 h2
    have hn : n < size := by rw [unpackBits_length] at h1; exact h1
    rw [← List.getD_eq_getElem _ false h1, ← List.getD_eq_getElem _ false h2]
    apply bool_eq_of_iff
    rw [unpackBits_getD size _ n hn, Nat.one_shiftLeft,
      and_two_pow_ne_zero, packBits_testBit size bits n hn]

lemma combinedHash_lt (e : List ℕ) (i size : ℕ) (h : 1 ≤ size) :
    BloomFilter.combinedHash e i size < size :=
  Nat.mod_lt _ (by omega)

lemma insert_size (f : BloomFilter) (e : List ℕ) : (f.insert e).size = f.size := rfl

lemma insert_numHashes (f : BloomFilter) (e : List ℕ) :
    (f.insert e).numHashes = f.numHashes := rfl

lemma insert_bitArray_length (f : BloomFilter) (e : List ℕ) :
    (f.insert e).bitArray.length = f.bitArray.length :=
  foldl_length_inv _ (fun bs i => List.length_set bs _ true)
    (List.range f.numHashes) f.bitArray

lemma insert_getD_mono (f : BloomFilter) (e : List ℕ) (j : ℕ)
    (h : f.bitArray.getD j false = true) :
    (f.insert e).bitArray.getD j false = true :=
  (setTrueFold_getD (fun i => BloomFilter.combinedHash e i f.size)
    (List.range f.numHashes) f.bitArray j).mpr (Or.inl h)

lemma insert_probe_true (f : BloomFilter) (e : List ℕ)
    (hlen : f.bitArray.length = f.size) (hsz : 1 ≤ f.size)
    (i : ℕ) (hi : i < f.numHashes) :
    (f.insert e).bitArray.getD (BloomFilter.combinedHash e i f.size) false = true :=
  (setTrueFold_getD (fun i => BloomFilter.combinedHash e i f.size)
    (List.range f.numHashes) f.bitArray _).mpr
    (Or.inr ⟨i, List.mem_range.mpr hi, rfl, hlen ▸ combinedHash_lt e i f.size hsz⟩)

lemma insertList_cons (f : BloomFilter) (k : List ℕ) (ks : List (List ℕ)) :
    insertList f (k :: ks) = insertList (f.insert k) ks := rfl

lemma insertList_size : ∀ (ks : List (List ℕ)) (f : BloomFilter),
    (insertList f ks).size = f.size := by
  intro ks
  induction ks with
  | nil => intro f; rfl
  | cons k ks ih =>
      intro f
      rw [insertList_cons, ih (f.insert k), insert_size]

lemma insertList_numHashes : ∀ (ks : List (List ℕ)) (f : BloomFilter),
    (insertList f ks).numHashes = f.numHashes := by
  intro ks
  induction ks with
  | nil => intro f; rfl
  | cons k ks ih =>
      intro f
      rw [insertList_cons, ih (f.insert k), insert_numHashes]

lemma insertList_bitArray_length : ∀ (ks : List (List ℕ)) (f : BloomFilter),
    (insertList f ks).bitArray.length = f.bitArray.length := by
  intro ks
  induction ks with
  | nil => intro f; rfl
  | cons k ks ih =>
      intro f
      rw [insertList_cons, ih (f.insert k), insert_bitArray_length]

lemma insertList_getD_mono : ∀ (ks : List (List ℕ)) (f : BloomFilter) (j : ℕ),
    f.bitArray.getD j false = true →
    (insertList f ks).bitArray.getD j false = true := by
  intro ks
  induction ks with
  | nil => intro f j h; exact h
  | cons k ks ih =>
      intro f j h
      rw [insertList_cons]
      exact ih (f.insert k) j (insert_getD_mono f k j h)

lemma clear_size (f : BloomFilter) : f.clear.size = f.size := rfl

lemma clear_numHashes (f : BloomFilter) : f.clear.numHashes = f.numHashes := rfl

lemma clear_bitArray (f : BloomFilter) (hlen : f.bitArray.length = f.size) :
    f.clear.bitArray = List.replicate f.size false := by
  have hl : f.clear.bitArray.length = f.size := by
    have h := foldl_length_inv (fun (bs : List Bool) (i : ℕ) => bs.set i false)
      (fun bs i => List.length_set bs i false) (List.range f.size) f.bitArray
    rw [show f.clear.bitArray =
        (List.range f.size).foldl (fun bs i => bs.set i false) f.bitArray from rfl, h, hlen]
  apply List.ext_getElem
  · rw [hl, List.length_replicate]
  · intro n h1 h2
    rw [List.getElem_replicate]
    have hn : n < f.size := by rwa [hl] at h1
    rw [← List.getD_eq_getElem _ false h1]
    apply Bool.eq_false_iff.mpr
    intro hcon
    have h := (setFalseFold_getD (List.range f.size) f.bitArray n).mp hcon
    exact h.2 ⟨List.mem_range.mpr hn, by rw [hlen]; exact hn⟩

lemma saveBytes_length (f : BloomFilter) :
    f.saveBytes.length = 12 + (f.size + 7) / 8 := by
  rw [BloomFilter.saveBytes, List.length_append, List.length_append,
    toLEBytes_length, toLEBytes_length, packBits_length]

lemma saveBytes_take8 (f : BloomFilter) :
    f.saveBytes.take 8 = toLEBytes 8 f.size :=
  List.take_left' (toLEBytes_length 8 f.size)

lemma saveBytes_drop8_take4 (f : BloomFilter) :
    (f.saveBytes.drop 8).take 4 = toLEBytes 4 f.numHashes := by
  rw [show f.saveBytes.drop 8 =
      toLEBytes 4 f.numHashes ++ packBits f.size f.bitArray from
    List.drop_left' (toLEBytes_length 8 f.size)]
  exact List.take_left' (toLEBytes_length 4 f.numHashes)

lemma saveBytes_drop12 (f : BloomFilter) :
    f.saveBytes.drop 12 = packBits f.size f.bitArray := by
  rw [show (12 : ℕ) = 8 + 4 from rfl, ← List.drop_drop,
    show f.saveBytes.drop 8 =
        toLEBytes 4 f.numHashes ++ packBits f.size f.bitArray from
      List.drop_left' (toLEBytes_length 8 f.size)]
  exact List.drop_left' (toLEBytes_length 4 f.numHashes)

lemma loadBytes_saveBytes (f : BloomFilter) (hwf : WF f) :
    BloomFilter.loadBytes f.saveBytes = some f := by
  obtain ⟨hlen, hsz, hnh⟩ := hwf
  have h12 : ¬(f.saveBytes.length < 12) := by rw [saveBytes_length]; omega
  have hsize : fromLEBytes (f.saveBytes.take 8) = f.size := by
    rw [saveBytes_take8, fromLEBytes_toLEBytes]
    exact Nat.mod_eq_of_lt (by rw [show (256 : ℕ) ^ 8 = 2 ^ 64 by norm_num]; exact hsz)
  have hk : fromLEBytes ((f.saveBytes.drop 8).take 4) = f.numHashes := by
    rw [saveBytes_drop8_take4, fromLEBytes_toLEBytes]
    exact Nat.mod_eq_of_lt (by rw [show (256 : ℕ) ^ 4 = 2 ^ 32 by norm_num]; exact hnh)
  have htake : (packBits f.size f.bitArray).take ((f.size + 7) / 8) =
      packBits f.size f.bitArray := by
    rw [← packBits_length f.size f.bitArray]
    exact List.take_length _
  rw [BloomFilter.loadBytes, if_neg h12]
  simp only [hsize, hk, saveBytes_drop12, htake]
  rw [if_neg (by rw [packBits_length]; omega)]
  rw [unpack_pack f.size f.bitArray hlen]

lemma mightContain_eq_true_iff (f : BloomFilter) (e : List ℕ) :
    f.mightContain e = true ↔
      ∀ i ∈ List.range f.numHashes,
        f.bitArray.getD (BloomFilter.combinedHash e i f.size) false = true :=
  List.all_eq_true

lemma createOptimal_bounds (n : ℕ) (p : ℝ) :
    8 ≤ (BloomFilter.createOptimal n p).size ∧
    1 ≤ (BloomFilter.createOptimal n p).numHashes ∧
    (BloomFilter.createOptimal n p).bitArray.length =
      (BloomFilter.createOptimal n p).size := by
  rw [BloomFilter.createOptimal]
  set s0 : ℕ := (⌈(-1 : ℝ) * n * Real.log p / (Real.log 2 * Real.log 2)⌉).toNat with hs0
  set k0 : ℕ := (⌈((s0 : ℝ) / (n : ℝ)) * Real.log 2⌉).toNat with hk0
  refine ⟨?_, ?_, ?_⟩
  · show 8 ≤ (mkBloomFilter (if s0 < 8 then 8 else s0) (if k0 < 1 then 1 else k0)).size
    by_cases h : s0 < 8
    · rw [if_pos h]
      exact le_refl 8
    · rw [if_neg h]
      exact Nat.le_of_not_lt h
  · show 1 ≤ (mkBloomFilter (if s0 < 8 then 8 else s0) (if k0 < 1 then 1 else k0)).numHashes
    by_cases h : k0 < 1
    · rw [if_pos h]
      exact le_refl 1
    · rw [if_neg h]
      exact Nat.le_of_not_lt h
  · show (mkBloomFilter (if s0 < 8 then 8 else s0) (if k0 < 1 then 1 else k0)).bitArray.length
        = (mkBloomFilter (if s0 < 8 then 8 else s0) (if k0 < 1 then 1 else k0)).size
    exact List.length_replicate _ _

lemma loadBytes_isSome_iff (bs : List ℕ) :
    (BloomFilter.loadBytes bs).isSome = true ↔
      (12 ≤ bs.length ∧ (fromLEBytes (bs.take 8) + 7) / 8 ≤ bs.length - 12) := by
  rw [BloomFilter.loadBytes]
  by_cases h12 : bs.length < 12
  · rw [if_pos h12]
    simp only [Option.isSome_none, Bool.false_eq_true, false_iff]
    omega
  · rw [if_neg h12]
    show (if (bs.drop 12).length < (fromLEBytes (bs.take 8) + 7) / 8 then (none : Option BloomFilter)
          else some ⟨fromLEBytes (bs.take 8), fromLEBytes ((bs.drop 8).take 4),
            unpackBits (fromLEBytes (bs.take 8))
              ((bs.drop 12).take ((fromLEBytes (bs.take 8) + 7) / 8))⟩).isSome = true ↔ _
    by_cases hp : (bs.drop 12).length < (fromLEBytes (bs.take 8) + 7) / 8
    · rw [if_pos hp]
      simp only [Option.isSome_none, Bool.false_eq_true, false_iff]
      rw [List.length_drop] at hp
      omega
    · rw [if_neg hp]
      simp only [Option.isSome_some, true_iff]
      rw [List.length_drop] at hp
      omega

lemma loadBytes_some (bs : List ℕ) (f : BloomFilter)
    (h : BloomFilter.loadBytes bs = some f) :
    f = ⟨fromLEBytes (bs.take 8), fromLEBytes ((bs.drop 8).take 4),
         unpackBits (fromLEBytes (bs.take 8))
           ((bs.drop 12).take ((fromLEBytes (bs.take 8) + 7) / 8))⟩ := by
  rw [BloomFilter.loadBytes] at h
  by_cases h12 : bs.length < 12
  · rw [if_pos h12] at h
    exact absurd h (by simp)
  · rw [if_neg h12] at h
    have h' : (if (bs.drop 12).length < (fromLEBytes (bs.take 8) + 7) / 8
          then (none : Option BloomFilter)
          else some ⟨fromLEBytes (bs.take 8), fromLEBytes ((bs.drop 8).take 4),
            unpackBits (fromLEBytes (bs.take 8))
              ((bs.drop 12).take ((fromLEBytes (bs.take 8) + 7) / 8))⟩) = some f := h
    by_cases hp : (bs.drop 12).length < (fromLEBytes (bs.take 8) + 7) / 8
    · rw [if_pos hp] at h'
      exact absurd h' (by simp)
    · rw [if_neg hp] at h'
      exact (Option.some_injective _ h').symm

/-! ## Claim theorems -/

/-- C1.  No false negatives: for every filter with `size ≥ 1` (and the
bit-vector invariant every instance has), after `insert(e)` and any further
sequence of inserts with no intervening `clear()`, `mightContain(e)` returns
`true`, for any size/hashCount combination. -/
theorem C1_no_false_negatives (f : BloomFilter) (e : List ℕ) (ks : List (List ℕ))
    (hlen : f.bitArray.length = f.size) (hsz : 1 ≤ f.size) :
    (insertList (f.insert e) ks).mightContain e = true := by
  rw [mightContain_eq_true_iff, insertList_numHashes, insert_numHashes,
    insertList_size, insert_size]
  intro i hi
  exact insertList_getD_mono ks (f.insert e) _
    (insert_probe_true f e hlen hsz i (List.mem_range.mp hi))

/-- Witness for C1 at a concrete filter: `m = 8`, `k = 2`, key `"a"`,
followed by two further inserts. -/
theorem C1_no_false_negatives_witness :
    (mkBloomFilter 8 2).bitArray.length = (mkBloomFilter 8 2).size ∧
    1 ≤ (mkBloomFilter 8 2).size ∧
    (insertList ((mkBloomFilter 8 2).insert [97]) [[98], [99]]).mightContain [97] = true :=
  ⟨by decide, by decide,
    C1_no_false_negatives (mkBloomFilter 8 2) [97] [[98], [99]] (by decide) (by decide)⟩

/-- C2.  Round-trip persistence: deserialising the byte stream written by
`saveToFile` yields a filter with identical `size`, `numHashes` and bit
array, hence identical `mightContain` answers for every key. -/
theorem C2_roundtrip (f : BloomFilter) (hwf : WF f) :
    ∃ f', BloomFilter.loadBytes f.saveBytes = some f' ∧
      f'.size = f.size ∧ f'.numHashes = f.numHashes ∧ f'.bitArray = f.bitArray ∧
      ∀ e, f'.mightContain e = f.mightContain e :=
  ⟨f, loadBytes_saveBytes f hwf, rfl, rfl, rfl, fun _ => rfl⟩

/-- Witness for C2 at a concrete populated filter. -/
theorem C2_roundtrip_witness :
    WF ((mkBloomFilter 8 2).insert [97]) ∧
    (∃ f', BloomFilter.loadBytes ((mkBloomFilter 8 2).insert [97]).saveBytes = some f' ∧
      f'.size = ((mkBloomFilter 8 2).insert [97]).size ∧
      f'.numHashes = ((mkBloomFilter 8 2).insert [97]).numHashes ∧
      f'.bitArray = ((mkBloomFilter 8 2).insert [97]).bitArray ∧
      ∀ e, f'.mightContain e = ((mkBloomFilter 8 2).insert [97]).mightContain e) :=
  ⟨by decide, C2_roundtrip ((mkBloomFilter 8 2).insert [97]) (by decide)⟩

/-- C3 counterexample: the constructor performs no validation.  Calling it
with `size = 0` and `hashCount = 0` does not fail — it returns a filter in
exactly the state the claim says can never exist (`size < 1`,
`hashCount < 1`, empty bit array). -/
theorem C3_counterexample :
    (mkBloomFilter 0 0).size = 0 ∧ (mkBloomFilter 0 0).numHashes = 0 ∧
      (mkBloomFilter 0 0).bitArray = [] :=
  ⟨rfl, rfl, rfl⟩

/-- C3 (amended): construction with explicit parameters never fails and
performs no parameter validation; for every `size` and `hashCount`,
including values below 1, it constructs a filter with exactly the given
fields and an all-false bit array of length `size`. -/
theorem C3_amended (s k : ℕ) :
    mkBloomFilter s k = ⟨s, k, List.replicate s false⟩ := rfl

/-- C4 counterexample: `createOptimal` performs no input validation.  At the
invalid rate `p = 1` (outside the open interval `(0,1)`: `ln 1 = 0`) with
`expectedItems = 1000` it raises no error and silently returns the filter
built from the degenerate values, clamped to `size = 8`, `hashCount = 1`. -/
theorem C4_counterexample :
    BloomFilter.createOptimal 1000 1 = mkBloomFilter 8 1 := by
  rw [BloomFilter.createOptimal]
  simp only [Real.log_one, mul_zero, zero_div, Int.ceil_zero, Int.toNat_zero,
    Nat.cast_zero, zero_mul, Nat.cast_ofNat]
  norm_num

/-- C4 (amended): `createOptimal` rejects nothing — it has no error path and
for every input (including `expectedItems = 0` and rates outside `(0,1)`)
returns a constructed filter, with only the minimum clamps `size ≥ 8` and
`hashCount ≥ 1` applied. -/
theorem C4_amended (n : ℕ) (p : ℝ) :
    8 ≤ (BloomFilter.createOptimal n p).size ∧
    1 ≤ (BloomFilter.createOptimal n p).numHashes ∧
    (BloomFilter.createOptimal n p).bitArray.length =
      (BloomFilter.createOptimal n p).size :=
  createOptimal_bounds n p

/-- C5.  Clear resets fully: for a filter with `size ≥ 1` and
`hashCount ≥ 1`, immediately after `clear()` the number of set bits is
exactly 0 and `mightContain` returns `false` for every key (in particular
every previously inserted one). -/
theorem C5_clear_resets (f : BloomFilter) (e : List ℕ)
    (hlen : f.bitArray.length = f.size) (hsz : 1 ≤ f.size) (hk : 1 ≤ f.numHashes) :
    f.clear.bitArray.count true = 0 ∧ f.clear.mightContain e = false := by
  have hb := clear_bitArray f hlen
  constructor
  · rw [hb, List.count_replicate]
    simp
  · apply Bool.eq_false_iff.mpr
    intro hcon
    rw [mightContain_eq_true_iff] at hcon
    have h0 := hcon 0 (List.mem_range.mpr (by rw [clear_numHashes]; omega))
    rw [hb, getD_replicate_false] at h0
    exact absurd h0 (by simp)

/-- Witness for C5: a populated concrete filter, cleared. -/
theorem C5_clear_resets_witness :
    ((mkBloomFilter 8 2).insert [97]).bitArray.length = ((mkBloomFilter 8 2).insert [97]).size ∧
    1 ≤ ((mkBloomFilter 8 2).insert [97]).size ∧
    1 ≤ ((mkBloomFilter 8 2).insert [97]).numHashes ∧
    (((mkBloomFilter 8 2).insert [97]).clear.bitArray.count true = 0 ∧
      ((mkBloomFilter 8 2).insert [97]).clear.mightContain [97] = false) :=
  ⟨by decide, by decide, by decide,
    C5_clear_resets ((mkBloomFilter 8 2).insert [97]) [97] (by decide) (by decide) (by decide)⟩

/-- C6.  Deterministic indexing: the index the code computes for hash
number `i` coincides, for every key, every `i` and every size, with the
spec's double-hash formula `(h1 + i·h2) mod size` built from the djb2
accumulation (`hash*33 + byte`, seed 5381) and the sdbm accumulation
(`byte + (hash<<6) + (hash<<16) - hash`, seed 0), all in fixed-width
64-bit unsigned arithmetic; and for `m = 8`, `k = 1` (so `i = 0`) and key
`"a"` (byte 97) the computed index is exactly 6. -/
theorem C6_deterministic_indexing :
    (∀ (key : List ℕ) (i m : ℕ),
        BloomFilter.combinedHash key i m = specIndex key i m) ∧
    BloomFilter.combinedHash [97] 0 8 = 6 ∧ specIndex [97] 0 8 = 6 := by
  have hstep : BloomFilter.hashStep1 = (fun h b => (h * 33 + b) % U64) := by
    funext h c
    rw [BloomFilter.hashStep1, Nat.shiftLeft_eq]
    congr 1
  refine ⟨?_, by decide, by decide⟩
  intro key i m
  rw [BloomFilter.combinedHash, specIndex, BloomFilter.hashFunction1, specH1, hstep,
    BloomFilter.hashFunction2, specH2]
  rfl

/-- C7.  Optimal parameters are valid: for `expectedItems ≥ 1` and
`0 < p < 1`, `createOptimal` returns `size ≥ 8` and `hashCount ≥ 1`
(by the explicit clamps). -/
theorem C7_optimal_params_valid (n : ℕ) (p : ℝ)
    (hn : 1 ≤ n) (hp0 : 0 < p) (hp1 : p < 1) :
    8 ≤ (BloomFilter.createOptimal n p).size ∧
    1 ≤ (BloomFilter.createOptimal n p).numHashes :=
  ⟨(createOptimal_bounds n p).1, (createOptimal_bounds n p).2.1⟩

/-- Witness for C7 at `expectedItems = 1`, `p = 1/2`. -/
theorem C7_optimal_params_valid_witness :
    (1 ≤ 1 ∧ (0 : ℝ) < 1 / 2 ∧ (1 / 2 : ℝ) < 1) ∧
    (8 ≤ (BloomFilter.createOptimal 1 (1 / 2)).size ∧
      1 ≤ (BloomFilter.createOptimal 1 (1 / 2)).numHashes) :=
  ⟨⟨le_refl 1, by norm_num, by norm_num⟩,
    C7_optimal_params_valid 1 (1 / 2) (le_refl 1) (by norm_num) (by norm_num)⟩

/-- C8.  Serialized byte layout: `saveToFile` writes the 8-byte unsigned
`size` at offset 0, the 4-byte unsigned `hashCount` at offset 8, then
exactly `ceil(size/8)` payload bytes with no padding, in this order; and
bit `i` of the filter occupies bit position `i mod 8` of payload byte
`i div 8` (LSB-first). -/
theorem C8_serialized_layout (f : BloomFilter) (hwf : WF f) :
    f.saveBytes =
      toLEBytes 8 f.size ++ toLEBytes 4 f.numHashes ++ packBits f.size f.bitArray ∧
    fromLEBytes (f.saveBytes.take 8) = f.size ∧
    fromLEBytes ((f.saveBytes.drop 8).take 4) = f.numHashes ∧
    f.saveBytes.length = 12 + (f.size + 7) / 8 ∧
    (f.saveBytes.drop 12).length = (f.size + 7) / 8 ∧
    ∀ i < f.size,
      ((f.saveBytes.drop 12).getD (i / 8) 0).testBit (i % 8) =
        f.bitArray.getD i false := by
  obtain ⟨hlen, hsz, hnh⟩ := hwf
  refine ⟨rfl, ?_, ?_, saveBytes_length f, ?_, ?_⟩
  · rw [saveBytes_take8, fromLEBytes_toLEBytes]
    exact Nat.mod_eq_of_lt (by rw [show (256 : ℕ) ^ 8 = 2 ^ 64 by norm_num]; exact hsz)
  · rw [saveBytes_drop8_take4, fromLEBytes_toLEBytes]
    exact Nat.mod_eq_of_lt (by rw [show (256 : ℕ) ^ 4 = 2 ^ 32 by norm_num]; exact hnh)
  · rw [saveBytes_drop12, packBits_length]
  · intro i hi
    rw [saveBytes_drop12]
    exact packBits_testBit f.size f.bitArray i hi

/-- Witness for C8 at a concrete populated filter. -/
theorem C8_serialized_layout_witness :
    WF ((mkBloomFilter 8 2).insert [97]) ∧
    (((mkBloomFilter 8 2).insert [97]).saveBytes =
        toLEBytes 8 ((mkBloomFilter 8 2).insert [97]).size ++
          toLEBytes 4 ((mkBloomFilter 8 2).insert [97]).numHashes ++
          packBits ((mkBloomFilter 8 2).insert [97]).size
            ((mkBloomFilter 8 2).insert [97]).bitArray ∧
      fromLEBytes (((mkBloomFilter 8 2).insert [97]).saveBytes.take 8) =
        ((mkBloomFilter 8 2).insert [97]).size ∧
      fromLEBytes ((((mkBloomFilter 8 2).insert [97]).saveBytes.drop 8).take 4) =
        ((mkBloomFilter 8 2).insert [97]).numHashes ∧
      ((mkBloomFilter 8 2).insert [97]).saveBytes.length =
        12 + (((mkBloomFilter 8 2).insert [97]).size + 7) / 8 ∧
      (((mkBloomFilter 8 2).insert [97]).saveBytes.drop 12).length =
        (((mkBloomFilter 8 2).insert [97]).size + 7) / 8 ∧
      ∀ i < ((mkBloomFilter 8 2).insert [97]).size,
        ((((mkBloomFilter 8 2).insert [97]).saveBytes.drop 12).getD (i / 8) 0).testBit (i % 8) =
          ((mkBloomFilter 8 2).insert [97]).bitArray.getD i false) :=
  ⟨by decide, C8_serialized_layout ((mkBloomFilter 8 2).insert [97]) (by decide)⟩

/-- C9.  Load failure atomicity: a load returns a filter iff the 12-byte
header is fully present and at least `ceil(size/8)` payload bytes follow it;
whenever it does return a filter, that filter is fully initialised (its
fields come from the header and its bit array has exactly `size` cells) —
no half-initialised filter is ever returned. -/
theorem C9_load_atomicity (bs : List ℕ) :
    ((BloomFilter.loadBytes bs).isSome = true ↔
      (12 ≤ bs.length ∧ (fromLEBytes (bs.take 8) + 7) / 8 ≤ bs.length - 12)) ∧
    (∀ f, BloomFilter.loadBytes bs = some f →
      f.size = fromLEBytes (bs.take 8) ∧
      f.numHashes = fromLEBytes ((bs.drop 8).take 4) ∧
      f.bitArray.length = f.size) := by
  refine ⟨loadBytes_isSome_iff bs, ?_⟩
  intro f h
  have he := loadBytes_some bs f h
  refine ⟨?_, ?_, ?_⟩
  · rw [he]
  · rw [he]
  · rw [he]
    exact unpackBits_length _ _

/-- Witness for C9: a concrete 13-byte stream (`size = 1`, `hashCount = 1`,
one payload byte) loads successfully into a fully initialised filter. -/
theorem C9_load_atomicity_witness :
    (BloomFilter.loadBytes [1, 0, 0, 0, 0, 0, 0, 0, 1, 0, 0, 0, 1]).isSome = true ∧
    ((⟨1, 1, [true]⟩ : BloomFilter).size =
        fromLEBytes ([1, 0, 0, 0, 0, 0, 0, 0, 1, 0, 0, 0, 1].take 8) ∧
      (⟨1, 1, [true]⟩ : BloomFilter).numHashes =
        fromLEBytes (([1, 0, 0, 0, 0, 0, 0, 0, 1, 0, 0, 0, 1].drop 8).take 4) ∧
      (⟨1, 1, [true]⟩ : BloomFilter).bitArray.length =
        (⟨1, 1, [true]⟩ : BloomFilter).size) :=
  ⟨(C9_load_atomicity [1, 0, 0, 0, 0, 0, 0, 0, 1, 0, 0, 0, 1]).1.mpr (by decide),
    (C9_load_atomicity [1, 0, 0, 0, 0, 0, 0, 0, 1, 0, 0, 0, 1]).2
      ⟨1, 1, [true]⟩ (by decide)⟩

/-- C10.  Observer operations are effect-free: `mightContain`, `getSize`,
`getNumHashes`, `getCurrentFalsePositiveRate` and `saveToFile` (all `const`
in the source, modelled as state-passing pairs) leave the filter state —
`size`, `numHashes` and the entire bit array — unchanged. -/
theorem C10_observers_pure (f : BloomFilter) (e : List ℕ) (n : ℕ) :
    (BloomFilter.mightContainS f e).1 = f ∧
    (BloomFilter.getSizeS f).1 = f ∧
    (BloomFilter.getNumHashesS f).1 = f ∧
    (BloomFilter.getCurrentFalsePositiveRateS f n).1 = f ∧
    (BloomFilter.saveToFileS f).1 = f :=
  ⟨rfl, rfl, rfl, rfl, rfl⟩
